import Mathlib

/-!
Verification development for the streaming-videos cache-placement solver
(`videos.py`).  The source is shallowly embedded: the whitespace token
stream is a `List String`, Python `int` values are `Int`, the Gurobi
variable dictionaries become explicit key lists, constraints become
explicit linear-constraint records, and the solver is an abstract
status plus a rational-valued assignment.
-/

namespace Videos

/-! ## Python integer conversion

`int(s)` on a token from `str.split()`: an optional sign followed by one
or more decimal digits succeeds; anything else raises `ValueError`,
which the source does not catch. -/

def digitsVal (cs : List Char) : Nat :=
  cs.foldl (fun acc c => 10 * acc + (c.toNat - 48)) 0

def pyInt? (s : String) : Option Int :=
  match s.toList with
  | [] => none
  | '-' :: rest =>
      if rest ≠ [] ∧ rest.all Char.isDigit then some (-(digitsVal rest : Int)) else none
  | '+' :: rest =>
      if rest ≠ [] ∧ rest.all Char.isDigit then some ((digitsVal rest : Int)) else none
  | cs =>
      if cs.all Char.isDigit then some ((digitsVal cs : Int)) else none

/-! ## Parsed data model (lines 15-45 of the source) -/

structure PEndpoint where
  ld : Int
  conns : List (Int × Int)
deriving DecidableEq

structure PRequest where
  id : Nat
  v : Int
  e : Int
  n : Int
deriving DecidableEq

structure Instance where
  V : Int
  E : Int
  R : Int
  C : Int
  X : Int
  videoSizes : List Int
  endpoints : List PEndpoint
  requests : List PRequest
deriving DecidableEq

/-! ## Token-stream parser

`PRes` is the outcome of reading from the token iterator: a value plus
the remaining tokens, `StopIteration` (caught by the source and turned
into the malformed-instance report), or `ValueError` from `int()`
(uncaught in the source). -/

inductive PRes (α : Type) where
  | ok (a : α) (rest : List String)
  | stopIteration
  | valueError
deriving DecidableEq

def ppure {α : Type} (a : α) : List String → PRes α := fun ts => .ok a ts

def pbind {α β : Type} (p : List String → PRes α) (q : α → List String → PRes β) :
    List String → PRes β := fun ts =>
  match p ts with
  | .ok a r => q a r
  | .stopIteration => .stopIteration
  | .valueError => .valueError

/-- `int(next(iterator))`: exhaustion raises `StopIteration`, a
non-integer token raises `ValueError`. -/
def nextInt : List String → PRes Int := fun ts =>
  match ts with
  | [] => .stopIteration
  | t :: r =>
      match pyInt? t with
      | some n => .ok n r
      | none => .valueError

/-- The `V` video sizes, in read order (line 23). -/
def readSizes : Nat → List String → PRes (List Int)
  | 0 => ppure []
  | n + 1 =>
      pbind nextInt fun s =>
      pbind (readSizes n) fun rest =>
      ppure (s :: rest)

/-- Python dict assignment `d[c] = l`: an existing key keeps its
position but gets the new value, a new key is appended (line 33). -/
def dictInsert : List (Int × Int) → Int → Int → List (Int × Int)
  | [], c, l => [(c, l)]
  | p :: rest, c, l => if p.1 = c then (c, l) :: rest else p :: dictInsert rest c l

/-- The `k` connection pairs of one endpoint, accumulated into the
connections dict exactly as the source loop does (lines 30-33). -/
def readConns : Nat → List (Int × Int) → List String → PRes (List (Int × Int))
  | 0, acc => ppure acc
  | k + 1, acc =>
      pbind nextInt fun c =>
      pbind nextInt fun l =>
      readConns k (dictInsert acc c l)

/-- The same `k` connection pairs read as a plain ordered list, used to
state what the dict accumulation keeps. -/
def readPairs : Nat → List String → PRes (List (Int × Int))
  | 0 => ppure []
  | k + 1 =>
      pbind nextInt fun c =>
      pbind nextInt fun l =>
      pbind (readPairs k) fun rest =>
      ppure ((c, l) :: rest)

/-- The `E` endpoints (lines 25-34); a negative connection count makes
`range(k)` empty, hence `toNat`. -/
def readEndpoints : Nat → List String → PRes (List PEndpoint)
  | 0 => ppure []
  | n + 1 =>
      pbind nextInt fun ld =>
      pbind nextInt fun k =>
      pbind (readConns k.toNat []) fun conns =>
      pbind (readEndpoints n) fun rest =>
      ppure (⟨ld, conns⟩ :: rest)

/-- The `R` requests (lines 36-41); the first argument is the running
ordinal assigned as the request id. -/
def readRequests : Nat → Nat → List String → PRes (List PRequest)
  | _, 0 => ppure []
  | i, n + 1 =>
      pbind nextInt fun rv =>
      pbind nextInt fun re =>
      pbind nextInt fun rn =>
      pbind (readRequests (i + 1) n) fun rest =>
      ppure (⟨i, rv, re, rn⟩ :: rest)

/-- The whole parse, lines 17-41 of the source, in read order. -/
def parseTokens : List String → PRes Instance :=
  pbind nextInt fun V =>
  pbind nextInt fun E =>
  pbind nextInt fun R =>
  pbind nextInt fun C =>
  pbind nextInt fun X =>
  pbind (readSizes V.toNat) fun sizes =>
  pbind (readEndpoints E.toNat) fun eps =>
  pbind (readRequests 0 R.toNat) fun reqs =>
  ppure ⟨V, E, R, C, X, sizes, eps, reqs⟩

/-- Outcome of the parsing stage of `solve_videos`: a missing file is
reported (`FileNotFoundError` handler, lines 11-13), exhaustion is
reported (`StopIteration` handler, lines 43-45), and a non-integer token
escapes as an uncaught `ValueError`.  No constructor carries partial
data. -/
inductive ParseOutcome where
  | ok (inst : Instance)
  | instanceNotFound
  | malformedInstance
  | uncaughtValueError
deriving DecidableEq

def parseInstance (source : Option (List String)) : ParseOutcome :=
  match source with
  | none => .instanceNotFound
  | some ts =>
      match parseTokens ts with
      | .ok inst _ => .ok inst
      | .stopIteration => .malformedInstance
      | .valueError => .uncaughtValueError

/-! ## Model builder (lines 51-110) -/

def defaultEndpoint : PEndpoint := ⟨0, []⟩

def defaultRequest : PRequest := ⟨0, 0, 0, 0⟩

/-- First-match association lookup, the semantics of `d[c]` and
`c in d` on the connections dict (whose keys are unique). -/
def dlookup : List (Int × Int) → Int → Option Int
  | [], _ => none
  | p :: rest, c => if p.1 = c then some p.2 else dlookup rest c

/-- `video_sizes[v]`; in-range indexing only, matching the well-formed
instances on which the source does not fault. -/
def size (inst : Instance) (v : Int) : Int := inst.videoSizes.getD v.toNat 0

/-- `endpoints[e]`, in-range indexing only. -/
def endpointOf (inst : Instance) (e : Int) : PEndpoint :=
  inst.endpoints.getD e.toNat defaultEndpoint

/-- `requests[i]`; request ids are list positions so this is total on
parser output. -/
def reqOf (inst : Instance) (i : Nat) : PRequest := inst.requests.getD i defaultRequest

def fallbackLatency (inst : Instance) (e : Int) : Int := (endpointOf inst e).ld

def cacheLatency (inst : Instance) (e c : Int) : Int :=
  (dlookup (endpointOf inst e).conns c).getD 0

def connectedCaches (inst : Instance) (e : Int) : List Int :=
  (endpointOf inst e).conns.map (·.1)

/-- `set(r[v] for r in requests)` (line 57), as a duplicate-free list. -/
def requestedVideos (inst : Instance) : List Int :=
  (inst.requests.map (·.v)).dedup

/-- `range(n)` as a list of integers; empty for a negative bound. -/
def rangeInt (n : Int) : List Int := (List.range n.toNat).map (Nat.cast : Nat → Int)

/-- Keys of the `y` variable dict (lines 61-65): cache index from
`range(C)`, requested video, video fits the uniform capacity. -/
def yKeys (inst : Instance) : List (Int × Int) :=
  (rangeInt inst.C).flatMap (fun c =>
    (requestedVideos inst).filterMap (fun v =>
      if size inst v ≤ inst.X then some (c, v) else none))

/-- The serving variables and objective coefficients one request
contributes (the body of the loop at lines 72-83): one entry per
connection of its endpoint that is faster than the fallback, provided
the video fits; key `(request id, cache id)`, coefficient
`(ld - lc) * count`. -/
def entriesOf (inst : Instance) (r : PRequest) : List ((Nat × Int) × Int) :=
  (endpointOf inst r.e).conns.filterMap (fun p =>
    if p.2 < (endpointOf inst r.e).ld ∧ size inst r.v ≤ inst.X then
      some ((r.id, p.1), ((endpointOf inst r.e).ld - p.2) * r.n)
    else none)

/-- The `x` variable dict together with the objective coefficient
appended for each created variable (lines 69-83), in request order. -/
def xEntries (inst : Instance) : List ((Nat × Int) × Int) :=
  inst.requests.flatMap (entriesOf inst)

def xKeys (inst : Instance) : List (Nat × Int) := (xEntries inst).map (·.1)

def boolToInt (b : Bool) : Int := if b then 1 else 0

/-- `quicksum(obj_terms)` (line 86) evaluated at a 0/1 assignment of
the serving variables. -/
def objective (inst : Instance) (σ : Nat × Int → Bool) : Int :=
  ((xEntries inst).map (fun t => t.2 * boolToInt (σ t.1))).sum

/-- The objective exactly as the specification words it: one term per
created serving variable, with coefficient
`(fallback latency - cache latency) * count` taken from the request. -/
def specObjective (inst : Instance) (σ : Nat × Int → Bool) : Int :=
  ((xKeys inst).map (fun k =>
    (fallbackLatency inst (reqOf inst k.1).e -
       cacheLatency inst (reqOf inst k.1).e k.2) * (reqOf inst k.1).n *
      boolToInt (σ k))).sum

/-- Model variables: placement `y c v`, serving `x r c`. -/
inductive VarId where
  | y (c v : Int)
  | x (r : Nat) (c : Int)
deriving DecidableEq

/-- A linear constraint `Σ coeff * var ≤ rhs`. -/
structure LinCons where
  terms : List (Int × VarId)
  rhs : Int
deriving DecidableEq

/-- Capacity constraints (lines 91-97): one per cache in `range(C)`,
summing `video_sizes[v] * y[c,v]` over requested videos whose key is in
the `y` dict. -/
def capacityConstraints (inst : Instance) : List LinCons :=
  (rangeInt inst.C).map (fun c =>
    ⟨((requestedVideos inst).filter (fun v => decide ((c, v) ∈ yKeys inst))).map
        (fun v => (size inst v, VarId.y c v)), inst.X⟩)

/-- One step of the consistency loop (lines 101-103): the constraint
`x[r,c] ≤ y[c, requests[r].v]`, written `x - y ≤ 0`; a missing `y` key
is the uncaught `KeyError`, collapsing the run to `none`. -/
def addConsistency (inst : Instance) : List (Nat × Int) → Option (List LinCons)
  | [] => some []
  | k :: rest =>
      let v := (reqOf inst k.1).v
      if (k.2, v) ∈ yKeys inst then
        match addConsistency inst rest with
        | some l => some (⟨[(1, .x k.1 k.2), (-1, .y k.2 v)], 0⟩ :: l)
        | none => none
      else none

def consistencyConstraints (inst : Instance) : Option (List LinCons) :=
  addConsistency inst (xKeys inst)

/-- Single-service constraints (lines 106-110): for each request, the
serving variables found among its endpoint connections; a constraint
`Σ x ≤ 1` is added only when that list is nonempty. -/
def singleServiceConstraints (inst : Instance) : List LinCons :=
  inst.requests.filterMap (fun r =>
    let vars := (endpointOf inst r.e).conns.filterMap (fun p =>
      if (r.id, p.1) ∈ xKeys inst then some ((1 : Int), VarId.x r.id p.1) else none)
    if vars.isEmpty then none else some ⟨vars, 1⟩)

/-- The serving-variable keys belonging to one request id. -/
def keysOf (inst : Instance) (i : Nat) : List (Nat × Int) :=
  (xKeys inst).filter (fun k => k.1 == i)

/-! ## Solver boundary and solution extraction (lines 119-134) -/

inductive SolveStatus where
  | optimal
  | suboptimal
  | timeLimit
  | infeasible
  | solverError
deriving DecidableEq

/-- `m.status in [GRB.OPTIMAL, GRB.SUBOPTIMAL, GRB.TIME_LIMIT]`. -/
def acceptableStatus : SolveStatus → Bool
  | .optimal => true
  | .suboptimal => true
  | .timeLimit => true
  | .infeasible => false
  | .solverError => false

/-- Recording one hit in `cache_contents` (lines 124-126): append the
video to the existing entry of the cache, or open a new entry. -/
def addHit (acc : List (Int × List Int)) (c v : Int) : List (Int × List Int) :=
  match acc with
  | [] => [(c, [v])]
  | e :: rest => if e.1 = c then (e.1, e.2 ++ [v]) :: rest else e :: addHit rest c v

/-- The `cache_contents` dict: every `y` entry whose solution value is
strictly above one half, grouped by cache in iteration order. -/
def cacheContents (inst : Instance) (val : VarId → ℚ) : List (Int × List Int) :=
  ((yKeys inst).filter (fun k => decide ((1 : ℚ) / 2 < val (.y k.1 k.2)))).foldl
    (fun acc k => addHit acc k.1 k.2) []

/-- Video `v` is recorded under cache `c` in the grouped contents. -/
def recorded (l : List (Int × List Int)) (c v : Int) : Prop :=
  ∃ vs, (c, vs) ∈ l ∧ v ∈ vs

/-- The written `videos.out`: the first line is the number of caches
holding at least one video, then one line per such cache. -/
structure OutputArtifact where
  count : Nat
  lines : List (Int × List Int)
deriving DecidableEq

def extract (inst : Instance) (status : SolveStatus) (val : VarId → ℚ) :
    Option OutputArtifact :=
  if acceptableStatus status then
    some ⟨(cacheContents inst val).length, cacheContents inst val⟩
  else none

/-! ## Program surface (lines 139-146) -/

inductive ProgOutcome where
  | usageExit
  | notFoundReturn
  | malformedReturn
  | crash
  | noSolution
  | wrote (out : OutputArtifact)
deriving DecidableEq

/-- Process exit status: `sys.exit(1)` for a missing argument, a
traceback exit for an uncaught exception, zero otherwise (the parse
error handlers print a message and return normally). -/
def exitCodeOf : ProgOutcome → Nat
  | .usageExit => 1
  | .crash => 1
  | _ => 0

def wroteOutput : ProgOutcome → Bool
  | .wrote _ => true
  | _ => false

/-- The `if name == main` block plus `solve_videos`: argument check,
parse, model build (where a dangling cache id crashes on `KeyError`),
solve at the given status and assignment, extraction. -/
def pyMain (userArgs : List String) (source : Option (List String))
    (status : SolveStatus) (val : VarId → ℚ) : ProgOutcome :=
  if userArgs.isEmpty then .usageExit
  else
    match parseInstance source with
    | .instanceNotFound => .notFoundReturn
    | .malformedInstance => .malformedReturn
    | .uncaughtValueError => .crash
    | .ok inst =>
        match consistencyConstraints inst with
        | none => .crash
        | some _ =>
            match extract inst status val with
            | some out => .wrote out
            | none => .noSolution

/-! ## Well-formed instances

The source indexes `video_sizes` by request video ids, `endpoints` by
request endpoint ids, and numbers requests by position; `WF` states the
in-range side conditions under which those accesses are the intended
ones, together with the structural facts the parser guarantees
(declared counts match list lengths, request ids are positions,
connection dict keys are unique). -/

/-- Request ids are list positions, as the parser assigns them. -/
def idsCanonical (inst : Instance) : Prop :=
  inst.requests.map (·.id) = List.range inst.requests.length

/-- Every request references an existing video and endpoint. -/
def reqIndicesInRange (inst : Instance) : Prop :=
  ∀ r ∈ inst.requests, 0 ≤ r.v ∧ r.v < inst.V ∧ 0 ≤ r.e ∧ r.e < inst.E

/-- Connection dict keys are unique, as dict accumulation guarantees. -/
def connsNodup (inst : Instance) : Prop :=
  ∀ ep ∈ inst.endpoints, (ep.conns.map (·.1)).Nodup

def WF (inst : Instance) : Prop :=
  0 ≤ inst.V ∧ inst.videoSizes.length = inst.V.toNat ∧
  0 ≤ inst.E ∧ inst.endpoints.length = inst.E.toNat ∧
  0 ≤ inst.R ∧ inst.requests.length = inst.R.toNat ∧
  0 ≤ inst.C ∧ idsCanonical inst ∧ reqIndicesInRange inst ∧ connsNodup inst

instance (inst : Instance) : Decidable (idsCanonical inst) := by
  unfold idsCanonical; infer_instance

instance (inst : Instance) : Decidable (reqIndicesInRange inst) := by
  unfold reqIndicesInRange; infer_instance

instance (inst : Instance) : Decidable (connsNodup inst) := by
  unfold connsNodup; infer_instance

instance (inst : Instance) : Decidable (WF inst) := by
  unfold WF; infer_instance

/-- Every connection of every endpoint names a cache in `range(C)`; the
source never checks this. -/
def connsInRange (inst : Instance) : Prop :=
  ∀ ep ∈ inst.endpoints, ∀ p ∈ ep.conns, 0 ≤ p.1 ∧ p.1 < inst.C

instance (inst : Instance) : Decidable (connsInRange inst) := by
  unfold connsInRange; infer_instance

/-! ## Concrete instances used as witnesses and counterexamples -/

/-- The worked example of the specification: one video of size 5, one
endpoint (fallback 100, cache 0 at latency 20), one request of count 3,
one cache of capacity 10. -/
def specEx : Instance :=
  ⟨1, 1, 1, 1, 10, [5], [⟨100, [(0, 20)]⟩], [⟨0, 0, 0, 3⟩]⟩

def specTokens : List String :=
  ["1", "1", "1", "1", "10", "5", "100", "1", "0", "20", "0", "0", "3"]

/-- Like the worked example, but the single connection names cache 1
while only cache 0 exists. -/
def danglingEx : Instance :=
  ⟨1, 1, 1, 1, 10, [5], [⟨100, [(1, 20)]⟩], [⟨0, 0, 0, 3⟩]⟩

/-- The latency kept for cache `c` after reading an ordered pair list
into a dict: the value of the last pair naming `c`, if any. -/
def lastValue : List (Int × Int) → Int → Option Int
  | [], _ => none
  | p :: rest, c =>
      match lastValue rest c with
      | some v => some v
      | none => if p.1 = c then some p.2 else none

/-- A reader consumes a definite prefix of the token stream: a
successful read is determined by the consumed tokens alone, and every
strict prefix of the consumed tokens exhausts the iterator. -/
def Consumes {α : Type} (P : List String → PRes α) : Prop :=
  ∀ ts a r, P ts = .ok a r →
    ∃ cs, ts = cs ++ r ∧
      (∀ tail, P (cs ++ tail) = .ok a tail) ∧
      (∀ k, k < cs.length → P (cs.take k) = .stopIteration)

/-- A reader never raises `ValueError` on a stream whose tokens are all
well-formed integers. -/
def NoVE {α : Type} (P : List String → PRes α) : Prop :=
  ∀ ts, (∀ t ∈ ts, (pyInt? t).isSome = true) → P ts ≠ .valueError

/-! ## Membership characterizations -/

theorem mem_rangeInt {n c : Int} : c ∈ rangeInt n ↔ 0 ≤ c ∧ c < n := by
  unfold rangeInt
  rw [List.mem_map]
  constructor
  · rintro ⟨k, hk, rfl⟩
    rw [List.mem_range] at hk
    omega
  · rintro ⟨h0, hn⟩
    refine ⟨c.toNat, ?_, ?_⟩
    · rw [List.mem_range]
      omega
    · omega

theorem mem_requestedVideos {inst : Instance} {v : Int} :
    v ∈ requestedVideos inst ↔ ∃ r ∈ inst.requests, r.v = v := by
  unfold requestedVideos
  simp [List.mem_dedup]

theorem mem_yKeys {inst : Instance} {c v : Int} :
    (c, v) ∈ yKeys inst ↔
      (0 ≤ c ∧ c < inst.C) ∧ v ∈ requestedVideos inst ∧ size inst v ≤ inst.X := by
  unfold yKeys
  simp only [List.mem_flatMap, List.mem_filterMap]
  constructor
  · rintro ⟨c', hc', v', hv', h⟩
    split at h
    · cases h
      exact ⟨mem_rangeInt.1 hc', hv', by assumption⟩
    · cases h
  · rintro ⟨hc, hv, hs⟩
    exact ⟨c, mem_rangeInt.2 hc, v, hv, by simp [hs]⟩

theorem dlookup_eq_of_mem {conns : List (Int × Int)} {p : Int × Int}
    (hnd : (conns.map (·.1)).Nodup) (hp : p ∈ conns) :
    dlookup conns p.1 = some p.2 := by
  induction conns with
  | nil => cases hp
  | cons q rest ih =>
      simp only [List.map_cons, List.nodup_cons, List.mem_map] at hnd
      rcases List.mem_cons.1 hp with h | h
      · subst h
        simp [dlookup]
      · have hne : q.1 ≠ p.1 := fun he => hnd.1 ⟨p, h, he.symm⟩
        rw [dlookup, if_neg hne]
        exact ih hnd.2 h

/-! ## Request id lemmas -/

theorem id_of_getElem {inst : Instance} (h : idsCanonical inst) {i : Nat}
    (hi : i < inst.requests.length) : (inst.requests[i]).id = i := by
  have h1 : (inst.requests.map (·.id))[i]? = (List.range inst.requests.length)[i]? := by
    rw [h]
  simp only [List.getElem?_map, List.getElem?_range hi, List.getElem?_eq_getElem hi] at h1
  simpa using h1

theorem reqOf_id {inst : Instance} (h : idsCanonical inst) {r : PRequest}
    (hr : r ∈ inst.requests) : reqOf inst r.id = r := by
  obtain ⟨i, hi, rfl⟩ := List.mem_iff_getElem.1 hr
  rw [id_of_getElem h hi]
  unfold reqOf
  rw [List.getD_eq_getElem _ _ hi]

theorem id_injective {inst : Instance} (h : idsCanonical inst) {r r' : PRequest}
    (hr : r ∈ inst.requests) (hr' : r' ∈ inst.requests) (he : r.id = r'.id) :
    r = r' := by
  obtain ⟨i, hi, rfl⟩ := List.mem_iff_getElem.1 hr
  obtain ⟨j, hj, rfl⟩ := List.mem_iff_getElem.1 hr'
  rw [id_of_getElem h hi, id_of_getElem h hj] at he
  subst he
  rfl

/-! ## Serving-variable characterizations -/

theorem mem_entriesOf {inst : Instance} {r : PRequest} {t : (Nat × Int) × Int} :
    t ∈ entriesOf inst r ↔
      ∃ p ∈ (endpointOf inst r.e).conns,
        (p.2 < (endpointOf inst r.e).ld ∧ size inst r.v ≤ inst.X) ∧
        t = ((r.id, p.1), ((endpointOf inst r.e).ld - p.2) * r.n) := by
  unfold entriesOf
  rw [List.mem_filterMap]
  constructor
  · rintro ⟨p, hp, h⟩
    split at h
    · cases h
      exact ⟨p, hp, by assumption, rfl⟩
    · cases h
  · rintro ⟨p, hp, hcond, rfl⟩
    exact ⟨p, hp, by simp [hcond]⟩

theorem mem_xEntries {inst : Instance} {t : (Nat × Int) × Int} :
    t ∈ xEntries inst ↔ ∃ r ∈ inst.requests, t ∈ entriesOf inst r := by
  unfold xEntries
  rw [List.mem_flatMap]

theorem entriesOf_key {inst : Instance} {r : PRequest} {t : (Nat × Int) × Int}
    (ht : t ∈ entriesOf inst r) : t.1.1 = r.id := by
  obtain ⟨p, hp, hc, rfl⟩ := mem_entriesOf.1 ht
  rfl

theorem endpointOf_conns_nodup {inst : Instance} (hnd : connsNodup inst) (e : Int) :
    ((endpointOf inst e).conns.map (·.1)).Nodup := by
  unfold endpointOf
  rcases Nat.lt_or_ge e.toNat inst.endpoints.length with h | h
  · rw [List.getD_eq_getElem _ _ h]
    exact hnd _ (List.getElem_mem h)
  · rw [List.getD_eq_default]
    · simp [defaultEndpoint]
    · exact h

theorem coeff_of_mem_xEntries {inst : Instance} (hid : idsCanonical inst)
    (hnd : connsNodup inst) {t : (Nat × Int) × Int} (ht : t ∈ xEntries inst) :
    t.2 = (fallbackLatency inst (reqOf inst t.1.1).e -
             cacheLatency inst (reqOf inst t.1.1).e t.1.2) * (reqOf inst t.1.1).n := by
  obtain ⟨r, hr, ht⟩ := mem_xEntries.1 ht
  obtain ⟨p, hp, hc, rfl⟩ := mem_entriesOf.1 ht
  have hreq : reqOf inst r.id = r := reqOf_id hid hr
  have hl : dlookup (endpointOf inst r.e).conns p.1 = some p.2 :=
    dlookup_eq_of_mem (endpointOf_conns_nodup hnd r.e) hp
  show ((endpointOf inst r.e).ld - p.2) * r.n = _
  unfold cacheLatency fallbackLatency
  rw [show ((r.id, p.1), ((endpointOf inst r.e).ld - p.2) * r.n).1.1 = r.id from rfl, hreq, hl]
  rfl

theorem mem_xKeys_iff {inst : Instance} (hnd : connsNodup inst) {i : Nat} {c : Int} :
    (i, c) ∈ xKeys inst ↔
      ∃ r ∈ inst.requests, r.id = i ∧ c ∈ connectedCaches inst r.e ∧
        cacheLatency inst r.e c < fallbackLatency inst r.e ∧ size inst r.v ≤ inst.X := by
  unfold xKeys
  rw [List.mem_map]
  constructor
  · rintro ⟨t, ht, heq⟩
    obtain ⟨r, hr, ht'⟩ := mem_xEntries.1 ht
    obtain ⟨p, hp, ⟨hlt, hsz⟩, rfl⟩ := mem_entriesOf.1 ht'
    obtain ⟨hi, hc⟩ : r.id = i ∧ p.1 = c := by
      constructor
      · exact congrArg Prod.fst heq
      · exact congrArg Prod.snd heq
    have hl : dlookup (endpointOf inst r.e).conns p.1 = some p.2 :=
      dlookup_eq_of_mem (endpointOf_conns_nodup hnd r.e) hp
    refine ⟨r, hr, hi, ?_, ?_, hsz⟩
    · exact hc ▸ List.mem_map.2 ⟨p, hp, rfl⟩
    · unfold cacheLatency fallbackLatency
      rw [← hc, hl]
      exact hlt
  · rintro ⟨r, hr, rfl, hcc, hlat, hsz⟩
    obtain ⟨p, hp, hpc⟩ := List.mem_map.1 hcc
    have hl : dlookup (endpointOf inst r.e).conns c = some p.2 :=
      hpc ▸ dlookup_eq_of_mem (endpointOf_conns_nodup hnd r.e) hp
    have hp2 : p.2 < (endpointOf inst r.e).ld := by
      unfold cacheLatency fallbackLatency at hlat
      rw [hl] at hlat
      exact hlat
    refine ⟨((r.id, p.1), ((endpointOf inst r.e).ld - p.2) * r.n), ?_, ?_⟩
    · exact mem_xEntries.2 ⟨r, hr, mem_entriesOf.2 ⟨p, hp, ⟨hp2, hsz⟩, rfl⟩⟩
    · rw [hpc]

/-! ## Per-request blocks of the serving variables -/

theorem flatMap_filter_block {α β : Type} (key : β → Nat) (f : α → Nat)
    (g : α → List β) (l : List α) (hnd : (l.map f).Nodup)
    (hkey : ∀ a ∈ l, ∀ b ∈ g a, key b = f a) {a : α} (ha : a ∈ l) :
    (l.flatMap g).filter (fun b => key b == f a) = g a := by
  induction l with
  | nil => cases ha
  | cons x l ih =>
      simp only [List.map_cons, List.nodup_cons, List.mem_map] at hnd
      rw [List.flatMap_cons, List.filter_append]
      rcases List.mem_cons.1 ha with h | h
      · subst h
        have h1 : (g a).filter (fun b => key b == f a) = g a := by
          apply List.filter_eq_self.2
          intro b hb
          simp [hkey a (List.mem_cons_self a l) b hb]
        have h2 : (l.flatMap g).filter (fun b => key b == f a) = [] := by
          apply List.filter_eq_nil_iff.2
          intro b hb
          obtain ⟨x', hx', hb'⟩ := List.mem_flatMap.1 hb
          have hk : key b = f x' := hkey x' (List.mem_cons_of_mem _ hx') b hb'
          have hne : f x' ≠ f a := fun he => hnd.1 ⟨x', hx', he⟩
          simp [hk, hne]
        rw [h1, h2, List.append_nil]
      · have hne : f x ≠ f a := fun he => hnd.1 ⟨a, h, he.symm⟩
        have h1 : (g x).filter (fun b => key b == f a) = [] := by
          apply List.filter_eq_nil_iff.2
          intro b hb
          have hk : key b = f x := hkey x (List.mem_cons_self x l) b hb
          simp [hk, hne]
        rw [h1, List.nil_append]
        exact ih hnd.2 (fun a ha => hkey a (List.mem_cons_of_mem _ ha)) h

theorem ids_nodup {inst : Instance} (hid : idsCanonical inst) :
    (inst.requests.map (·.id)).Nodup := by
  rw [hid]
  exact List.nodup_range _

theorem xEntries_filter_id {inst : Instance} (hid : idsCanonical inst)
    {r : PRequest} (hr : r ∈ inst.requests) :
    (xEntries inst).filter (fun t => t.1.1 == r.id) = entriesOf inst r :=
  flatMap_filter_block (fun t => t.1.1) (·.id) (entriesOf inst) inst.requests
    (ids_nodup hid) (fun _ _ _ hb => entriesOf_key hb) hr

theorem keysOf_eq {inst : Instance} (hid : idsCanonical inst)
    {r : PRequest} (hr : r ∈ inst.requests) :
    keysOf inst r.id = (entriesOf inst r).map (·.1) := by
  unfold keysOf xKeys
  rw [List.filter_map, ← xEntries_filter_id hid hr]
  rfl

theorem eq_of_mem_keys_nodup {l : List (Int × Int)} (h : (l.map (·.1)).Nodup)
    {p q : Int × Int} (hp : p ∈ l) (hq : q ∈ l) (he : p.1 = q.1) : p = q := by
  induction l with
  | nil => cases hp
  | cons x l ih =>
      simp only [List.map_cons, List.nodup_cons, List.mem_map] at h
      rcases List.mem_cons.1 hp with h1 | h1 <;> rcases List.mem_cons.1 hq with h2 | h2
      · rw [h1, h2]
      · subst h1
        exact absurd ⟨q, h2, (he.symm : q.1 = p.1)⟩ h.1
      · subst h2
        exact absurd ⟨p, h1, he⟩ h.1
      · exact ih h.2 h1 h2

/-! ## Single-service machinery -/

theorem mem_xKeys_of_id {inst : Instance} (hid : idsCanonical inst)
    (hnd : connsNodup inst) {r : PRequest} (hr : r ∈ inst.requests)
    {p : Int × Int} (hp : p ∈ (endpointOf inst r.e).conns) :
    ((r.id, p.1) ∈ xKeys inst ↔
      (p.2 < (endpointOf inst r.e).ld ∧ size inst r.v ≤ inst.X)) := by
  constructor
  · intro hmem
    unfold xKeys at hmem
    obtain ⟨t, ht, htk⟩ := List.mem_map.1 hmem
    obtain ⟨r', hr', ht'⟩ := mem_xEntries.1 ht
    obtain ⟨p', hp', hc', hteq⟩ := mem_entriesOf.1 ht'
    subst hteq
    have hidq : r'.id = r.id := congrArg Prod.fst htk
    have hr'r : r' = r := id_injective hid hr' hr hidq
    rw [hr'r] at hp' hc'
    have hpq : p' = p :=
      eq_of_mem_keys_nodup (endpointOf_conns_nodup hnd r.e) hp' hp
        (congrArg Prod.snd htk)
    rw [← hpq]
    exact hc'
  · intro hc
    unfold xKeys
    exact List.mem_map.2 ⟨((r.id, p.1), ((endpointOf inst r.e).ld - p.2) * r.n),
      mem_xEntries.2 ⟨r, hr, mem_entriesOf.2 ⟨p, hp, hc, rfl⟩⟩, rfl⟩

theorem vars_eq_keysOf {inst : Instance} (hid : idsCanonical inst)
    (hnd : connsNodup inst) {r : PRequest} (hr : r ∈ inst.requests) :
    (endpointOf inst r.e).conns.filterMap (fun p =>
        if (r.id, p.1) ∈ xKeys inst then some ((1 : Int), VarId.x r.id p.1) else none) =
      (keysOf inst r.id).map (fun k => ((1 : Int), VarId.x k.1 k.2)) := by
  rw [keysOf_eq hid hr, List.map_map]
  unfold entriesOf
  rw [List.map_filterMap]
  apply List.filterMap_congr
  intro p hp
  by_cases hc : (p.2 < (endpointOf inst r.e).ld ∧ size inst r.v ≤ inst.X)
  · rw [if_pos ((mem_xKeys_of_id hid hnd hr hp).2 hc), if_pos hc]
    rfl
  · rw [if_neg (fun hmem => hc ((mem_xKeys_of_id hid hnd hr hp).1 hmem)), if_neg hc]
    rfl

theorem isEmpty_map {α β : Type} (f : α → β) (l : List α) :
    (l.map f).isEmpty = l.isEmpty := by
  cases l <;> rfl

theorem filterMap_if_empty {α β γ : Type} (g : α → List γ) (mk : List γ → β)
    (l : List α) :
    l.filterMap (fun a => if (g a).isEmpty then none else some (mk (g a))) =
      (l.filter (fun a => !(g a).isEmpty)).map (fun a => mk (g a)) := by
  induction l with
  | nil => rfl
  | cons x l ih =>
      rw [List.filterMap_cons, List.filter_cons]
      by_cases hx : (g x).isEmpty
      · simp only [hx, if_true, Bool.not_true, if_neg (by simp : ¬ (false = true))]
        exact ih
      · simp only [Bool.not_eq_true] at hx
        simp only [hx, Bool.not_false, if_true, List.map_cons]
        rw [if_neg (by simp [hx])]
        rw [ih]

/-! ## Extractor machinery -/

theorem recorded_nil {a b : Int} : ¬ recorded [] a b := by
  rintro ⟨vs, hmem, _⟩
  cases hmem

theorem recorded_cons {x : Int × List Int} {l : List (Int × List Int)} {a b : Int} :
    recorded (x :: l) a b ↔ (a = x.1 ∧ b ∈ x.2) ∨ recorded l a b := by
  unfold recorded
  constructor
  · rintro ⟨vs, hmem, hb⟩
    rcases List.mem_cons.1 hmem with h | h
    · left
      exact ⟨congrArg Prod.fst h, (congrArg Prod.snd h) ▸ hb⟩
    · exact Or.inr ⟨vs, h, hb⟩
  · rintro (⟨ha, hb⟩ | ⟨vs, hmem, hb⟩)
    · exact ⟨x.2, by rw [ha, Prod.mk.eta]; exact List.mem_cons_self x l, hb⟩
    · exact ⟨vs, List.mem_cons_of_mem _ hmem, hb⟩

theorem recorded_addHit {acc : List (Int × List Int)} {c v a b : Int} :
    recorded (addHit acc c v) a b ↔ recorded acc a b ∨ (a = c ∧ b = v) := by
  induction acc with
  | nil =>
      show recorded [(c, [v])] a b ↔ _
      rw [recorded_cons]
      simp [recorded_nil]
  | cons e rest ih =>
      show recorded (if e.1 = c then (e.1, e.2 ++ [v]) :: rest else e :: addHit rest c v) a b ↔ _
      by_cases he : e.1 = c
      · rw [if_pos he, recorded_cons, recorded_cons, he]
        simp only [List.mem_append, List.mem_singleton]
        tauto
      · rw [if_neg he, recorded_cons, recorded_cons, ih]
        tauto

theorem keys_addHit {acc : List (Int × List Int)} {c v : Int} :
    (addHit acc c v).map (·.1) =
      if c ∈ acc.map (·.1) then acc.map (·.1) else acc.map (·.1) ++ [c] := by
  induction acc with
  | nil => rfl
  | cons e rest ih =>
      show (if e.1 = c then (e.1, e.2 ++ [v]) :: rest else e :: addHit rest c v).map (·.1) = _
      by_cases he : e.1 = c
      · rw [if_pos he]
        have : c ∈ (e :: rest).map (·.1) := by
          rw [List.map_cons, he]
          exact List.mem_cons_self c _
        rw [if_pos this]
        rfl
      · rw [if_neg he, List.map_cons, List.map_cons, ih]
        have hme : (c ∈ e.1 :: rest.map (·.1)) ↔ c ∈ rest.map (·.1) := by
          rw [List.mem_cons]
          exact or_iff_right (fun h => he h.symm)
        by_cases hm : c ∈ rest.map (·.1)
        · rw [if_pos hm, if_pos (hme.2 hm)]
        · rw [if_neg hm, if_neg (fun h => hm (hme.1 h))]
          rfl

theorem nodup_keys_addHit {acc : List (Int × List Int)} {c v : Int}
    (h : (acc.map (·.1)).Nodup) : ((addHit acc c v).map (·.1)).Nodup := by
  rw [keys_addHit]
  by_cases hm : c ∈ acc.map (·.1)
  · rw [if_pos hm]
    exact h
  · rw [if_neg hm]
    rw [List.nodup_append]
    exact ⟨h, List.nodup_singleton c, by simp [hm]⟩

theorem nonempty_addHit {acc : List (Int × List Int)} {c v : Int}
    (h : ∀ e ∈ acc, e.2 ≠ []) : ∀ e ∈ addHit acc c v, e.2 ≠ [] := by
  induction acc with
  | nil =>
      intro e he
      rcases List.mem_cons.1 he with h1 | h1
      · rw [h1]
        simp
      · cases h1
  | cons x rest ih =>
      intro e he
      show e.2 ≠ []
      have hx := h x (List.mem_cons_self x rest)
      have hrest : ∀ e ∈ rest, e.2 ≠ [] := fun e he => h e (List.mem_cons_of_mem _ he)
      rw [show addHit (x :: rest) c v =
            (if x.1 = c then (x.1, x.2 ++ [v]) :: rest else x :: addHit rest c v) from rfl] at he
      by_cases hxc : x.1 = c
      · rw [if_pos hxc] at he
        rcases List.mem_cons.1 he with h1 | h1
        · rw [h1]
          simp
        · exact hrest e h1
      · rw [if_neg hxc] at he
        rcases List.mem_cons.1 he with h1 | h1
        · rw [h1]
          exact hx
        · exact ih hrest e h1

theorem recorded_foldl {l : List (Int × Int)} {acc : List (Int × List Int)} {a b : Int} :
    recorded (l.foldl (fun acc k => addHit acc k.1 k.2) acc) a b ↔
      recorded acc a b ∨ (a, b) ∈ l := by
  induction l generalizing acc with
  | nil => simp
  | cons k l ih =>
      rw [List.foldl_cons, ih, recorded_addHit, List.mem_cons]
      have : (a = k.1 ∧ b = k.2) ↔ (a, b) = k := by
        rw [Prod.ext_iff]
      tauto

theorem nodup_keys_foldl {l : List (Int × Int)} {acc : List (Int × List Int)}
    (h : (acc.map (·.1)).Nodup) :
    ((l.foldl (fun acc k => addHit acc k.1 k.2) acc).map (·.1)).Nodup := by
  induction l generalizing acc with
  | nil => exact h
  | cons k l ih =>
      rw [List.foldl_cons]
      exact ih (nodup_keys_addHit h)

theorem nonempty_foldl {l : List (Int × Int)} {acc : List (Int × List Int)}
    (h : ∀ e ∈ acc, e.2 ≠ []) :
    ∀ e ∈ l.foldl (fun acc k => addHit acc k.1 k.2) acc, e.2 ≠ [] := by
  induction l generalizing acc with
  | nil => exact h
  | cons k l ih =>
      rw [List.foldl_cons]
      exact ih (nonempty_addHit h)

theorem recorded_cacheContents {inst : Instance} {val : VarId → ℚ} {a b : Int} :
    recorded (cacheContents inst val) a b ↔
      (a, b) ∈ yKeys inst ∧ (1 : ℚ) / 2 < val (.y a b) := by
  unfold cacheContents
  rw [recorded_foldl]
  simp only [recorded_nil (a := a) (b := b), false_or]
  rw [List.mem_filter]
  simp

theorem nodup_keys_cacheContents {inst : Instance} {val : VarId → ℚ} :
    ((cacheContents inst val).map (·.1)).Nodup := by
  unfold cacheContents
  exact nodup_keys_foldl List.nodup_nil

theorem nonempty_cacheContents {inst : Instance} {val : VarId → ℚ} :
    ∀ e ∈ cacheContents inst val, e.2 ≠ [] := by
  unfold cacheContents
  exact nonempty_foldl (fun e he => absurd he (List.not_mem_nil e))

/-! ## Parser consumption lemmas -/

theorem pbind_ok {α β : Type} {P : List String → PRes α} {Q : α → List String → PRes β}
    {ts : List String} {b : β} {r : List String} (h : pbind P Q ts = .ok b r) :
    ∃ a r1, P ts = .ok a r1 ∧ Q a r1 = .ok b r := by
  unfold pbind at h
  cases hP : P ts with
  | ok a r1 =>
      rw [hP] at h
      exact ⟨a, r1, rfl, h⟩
  | stopIteration =>
      rw [hP] at h
      cases h
  | valueError =>
      rw [hP] at h
      cases h

theorem ppure_ok {α : Type} {a b : α} {ts r : List String}
    (h : ppure a ts = .ok b r) : a = b ∧ ts = r := by
  unfold ppure at h
  injection h with h1 h2
  exact ⟨h1, h2⟩

theorem consumes_ppure {α : Type} (a : α) : Consumes (ppure a) := by
  intro ts b r h
  obtain ⟨hab, hts⟩ := ppure_ok h
  refine ⟨[], by rw [hts]; rfl, ?_, ?_⟩
  · intro tail
    rw [hab]
    rfl
  · intro k hk
    cases hk

theorem consumes_nextInt : Consumes nextInt := by
  intro ts a r h
  match ts with
  | [] => cases h
  | t :: ts' =>
      rw [show nextInt (t :: ts') =
            (match pyInt? t with
             | some n => .ok n ts'
             | none => .valueError) from rfl] at h
      cases hp : pyInt? t with
      | none =>
          rw [hp] at h
          cases h
      | some n =>
          rw [hp] at h
          injection h with h1 h2
          subst h1
          subst h2
          refine ⟨[t], rfl, ?_, ?_⟩
          · intro tail
            show (match pyInt? t with
                  | some n => PRes.ok n tail
                  | none => PRes.valueError) = _
            rw [hp]
          · intro k hk
            simp only [List.length_singleton] at hk
            have hk0 : k = 0 := by omega
            subst hk0
            rfl

theorem consumes_pbind {α β : Type} {P : List String → PRes α}
    {Q : α → List String → PRes β} (hP : Consumes P)
    (hQ : ∀ a, Consumes (Q a)) : Consumes (pbind P Q) := by
  intro ts b r h
  obtain ⟨a, r1, hPts, hQr1⟩ := pbind_ok h
  obtain ⟨cs1, hts, hP1, hP2⟩ := hP ts a r1 hPts
  obtain ⟨cs2, hr1, hQ1, hQ2⟩ := hQ a r1 b r hQr1
  refine ⟨cs1 ++ cs2, ?_, ?_, ?_⟩
  · rw [hts, hr1, List.append_assoc]
  · intro tail
    unfold pbind
    rw [List.append_assoc, hP1 (cs2 ++ tail)]
    exact hQ1 tail
  · intro k hk
    unfold pbind
    rw [List.take_append_eq_append_take]
    rcases Nat.lt_or_ge k cs1.length with hlt | hge
    · have h0 : k - cs1.length = 0 := by omega
      rw [h0, List.take_zero, List.append_nil, hP2 k hlt]
    · have hcs1 : cs1.take k = cs1 := List.take_of_length_le hge
      rw [hcs1, hP1 (cs2.take (k - cs1.length))]
      have hlt2 : k - cs1.length < cs2.length := by
        rw [List.length_append] at hk
        omega
      show Q a (cs2.take (k - cs1.length)) = _
      exact hQ2 _ hlt2

theorem nove_ppure {α : Type} (a : α) : NoVE (ppure a) := by
  intro ts _ h
  cases h

theorem nove_nextInt : NoVE nextInt := by
  intro ts hts h
  match ts with
  | [] => cases h
  | t :: ts' =>
      have hsome := hts t (List.mem_cons_self t ts')
      rw [show nextInt (t :: ts') =
            (match pyInt? t with
             | some n => .ok n ts'
             | none => .valueError) from rfl] at h
      cases hp : pyInt? t with
      | none =>
          rw [hp] at hsome
          cases hsome
      | some n =>
          rw [hp] at h
          cases h

theorem nove_pbind {α β : Type} {P : List String → PRes α}
    {Q : α → List String → PRes β} (hPc : Consumes P) (hP : NoVE P)
    (hQ : ∀ a, NoVE (Q a)) : NoVE (pbind P Q) := by
  intro ts hts h
  unfold pbind at h
  cases hPts : P ts with
  | ok a r1 =>
      rw [hPts] at h
      obtain ⟨cs, hcs, _, _⟩ := hPc ts a r1 hPts
      refine hQ a r1 ?_ h
      intro t ht
      refine hts t ?_
      rw [hcs]
      exact List.mem_append_right _ ht
  | stopIteration =>
      rw [hPts] at h
      cases h
  | valueError =>
      exact hP ts hts hPts

theorem consumes_readSizes (n : Nat) : Consumes (readSizes n) := by
  induction n with
  | zero => exact consumes_ppure []
  | succ n ih =>
      exact consumes_pbind consumes_nextInt fun s =>
        consumes_pbind ih fun rest => consumes_ppure _

theorem consumes_readConns (k : Nat) : ∀ acc, Consumes (readConns k acc) := by
  induction k with
  | zero => intro acc; exact consumes_ppure acc
  | succ k ih =>
      intro acc
      exact consumes_pbind consumes_nextInt fun c =>
        consumes_pbind consumes_nextInt fun l => ih (dictInsert acc c l)

theorem consumes_readEndpoints (n : Nat) : Consumes (readEndpoints n) := by
  induction n with
  | zero => exact consumes_ppure []
  | succ n ih =>
      exact consumes_pbind consumes_nextInt fun ld =>
        consumes_pbind consumes_nextInt fun k =>
        consumes_pbind (consumes_readConns k.toNat []) fun conns =>
        consumes_pbind ih fun rest => consumes_ppure _

theorem consumes_readRequests (n : Nat) : ∀ i, Consumes (readRequests i n) := by
  induction n with
  | zero => intro i; exact consumes_ppure []
  | succ n ih =>
      intro i
      exact consumes_pbind consumes_nextInt fun rv =>
        consumes_pbind consumes_nextInt fun re =>
        consumes_pbind consumes_nextInt fun rn =>
        consumes_pbind (ih (i + 1)) fun rest => consumes_ppure _

theorem consumes_parseTokens : Consumes parseTokens :=
  consumes_pbind consumes_nextInt fun V =>
    consumes_pbind consumes_nextInt fun E =>
    consumes_pbind consumes_nextInt fun R =>
    consumes_pbind consumes_nextInt fun C =>
    consumes_pbind consumes_nextInt fun X =>
    consumes_pbind (consumes_readSizes V.toNat) fun sizes =>
    consumes_pbind (consumes_readEndpoints E.toNat) fun eps =>
    consumes_pbind (consumes_readRequests R.toNat 0) fun reqs =>
    consumes_ppure _

theorem nove_readSizes (n : Nat) : NoVE (readSizes n) := by
  induction n with
  | zero => exact nove_ppure []
  | succ n ih =>
      exact nove_pbind consumes_nextInt nove_nextInt fun s =>
        nove_pbind (consumes_readSizes n) ih fun rest => nove_ppure _

theorem nove_readConns (k : Nat) : ∀ acc, NoVE (readConns k acc) := by
  induction k with
  | zero => intro acc; exact nove_ppure acc
  | succ k ih =>
      intro acc
      exact nove_pbind consumes_nextInt nove_nextInt fun c =>
        nove_pbind consumes_nextInt nove_nextInt fun l => ih (dictInsert acc c l)

theorem nove_readEndpoints (n : Nat) : NoVE (readEndpoints n) := by
  induction n with
  | zero => exact nove_ppure []
  | succ n ih =>
      exact nove_pbind consumes_nextInt nove_nextInt fun ld =>
        nove_pbind consumes_nextInt nove_nextInt fun k =>
        nove_pbind (consumes_readConns k.toNat []) (nove_readConns k.toNat []) fun conns =>
        nove_pbind (consumes_readEndpoints n) ih fun rest => nove_ppure _

theorem nove_readRequests (n : Nat) : ∀ i, NoVE (readRequests i n) := by
  induction n with
  | zero => intro i; exact nove_ppure []
  | succ n ih =>
      intro i
      exact nove_pbind consumes_nextInt nove_nextInt fun rv =>
        nove_pbind consumes_nextInt nove_nextInt fun re =>
        nove_pbind consumes_nextInt nove_nextInt fun rn =>
        nove_pbind (consumes_readRequests n (i + 1)) (ih (i + 1)) fun rest => nove_ppure _

theorem nove_parseTokens : NoVE parseTokens :=
  nove_pbind consumes_nextInt nove_nextInt fun V =>
    nove_pbind consumes_nextInt nove_nextInt fun E =>
    nove_pbind consumes_nextInt nove_nextInt fun R =>
    nove_pbind consumes_nextInt nove_nextInt fun C =>
    nove_pbind consumes_nextInt nove_nextInt fun X =>
    nove_pbind (consumes_readSizes V.toNat) (nove_readSizes V.toNat) fun sizes =>
    nove_pbind (consumes_readEndpoints E.toNat) (nove_readEndpoints E.toNat) fun eps =>
    nove_pbind (consumes_readRequests R.toNat 0) (nove_readRequests R.toNat 0) fun reqs =>
    nove_ppure _

theorem parseTokens_truncation {ts : List String} {inst : Instance} {rest : List String}
    (h : parseTokens ts = .ok inst rest) :
    ∀ k, k < ts.length - rest.length → parseTokens (ts.take k) = .stopIteration := by
  obtain ⟨cs, hts, h1, h2⟩ := consumes_parseTokens ts inst rest h
  intro k hk
  have hlen : ts.length = cs.length + rest.length := by
    rw [hts, List.length_append]
  have hkcs : k < cs.length := by omega
  have hteq : ts.take k = cs.take k := by
    rw [hts, List.take_append_eq_append_take]
    have h0 : k - cs.length = 0 := by omega
    rw [h0, List.take_zero, List.append_nil]
  rw [hteq]
  exact h2 k hkcs

/-! ## Dict accumulation: last value wins, keys unique -/

theorem dlookup_dictInsert (acc : List (Int × Int)) (c l c' : Int) :
    dlookup (dictInsert acc c l) c' = if c = c' then some l else dlookup acc c' := by
  induction acc with
  | nil =>
      show dlookup [(c, l)] c' = _
      unfold dlookup
      rfl
  | cons p rest ih =>
      show dlookup (if p.1 = c then (c, l) :: rest else p :: dictInsert rest c l) c' = _
      by_cases hp : p.1 = c
      · rw [if_pos hp]
        show (if c = c' then some l else dlookup rest c') = _
        by_cases hc : c = c'
        · rw [if_pos hc, if_pos hc]
        · rw [if_neg hc, if_neg hc]
          show dlookup rest c' = dlookup (p :: rest) c'
          have hpc' : p.1 ≠ c' := fun he => hc (hp ▸ he)
          show dlookup rest c' = if p.1 = c' then some p.2 else dlookup rest c'
          rw [if_neg hpc']
      · rw [if_neg hp]
        show (if p.1 = c' then some p.2 else dlookup (dictInsert rest c l) c') = _
        by_cases hpc : p.1 = c'
        · rw [if_pos hpc]
          have hcc : c ≠ c' := fun he => hp (he ▸ hpc)
          rw [if_neg hcc]
          show _ = if p.1 = c' then some p.2 else dlookup rest c'
          rw [if_pos hpc]
        · rw [if_neg hpc, ih]
          by_cases hc : c = c'
          · rw [if_pos hc, if_pos hc]
          · rw [if_neg hc, if_neg hc]
            show dlookup rest c' = if p.1 = c' then some p.2 else dlookup rest c'
            rw [if_neg hpc]

theorem dlookup_foldl_dictInsert (ps : List (Int × Int)) (acc : List (Int × Int))
    (c : Int) :
    dlookup (ps.foldl (fun a p => dictInsert a p.1 p.2) acc) c =
      match lastValue ps c with
      | some v => some v
      | none => dlookup acc c := by
  induction ps generalizing acc with
  | nil => rfl
  | cons p ps ih =>
      rw [List.foldl_cons, ih]
      show _ = (match (match lastValue ps c with
                       | some v => some v
                       | none => if p.1 = c then some p.2 else none) with
                | some v => some v
                | none => dlookup acc c)
      cases hps : lastValue ps c with
      | some v => rfl
      | none =>
          show dlookup (dictInsert acc p.1 p.2) c = _
          rw [dlookup_dictInsert]
          by_cases hpc : p.1 = c
          · rw [if_pos hpc]
            show _ = (match (if p.1 = c then some p.2 else none) with
                      | some v => some v
                      | none => dlookup acc c)
            rw [if_pos hpc]
          · rw [if_neg hpc]
            show _ = (match (if p.1 = c then some p.2 else none) with
                      | some v => some v
                      | none => dlookup acc c)
            rw [if_neg hpc]

theorem keys_dictInsert {acc : List (Int × Int)} {c l : Int} :
    (dictInsert acc c l).map (·.1) =
      if c ∈ acc.map (·.1) then acc.map (·.1) else acc.map (·.1) ++ [c] := by
  induction acc with
  | nil => rfl
  | cons p rest ih =>
      show (if p.1 = c then (c, l) :: rest else p :: dictInsert rest c l).map (·.1) = _
      by_cases hp : p.1 = c
      · rw [if_pos hp]
        have hm : c ∈ (p :: rest).map (·.1) := by
          rw [List.map_cons, hp]
          exact List.mem_cons_self c _
        rw [if_pos hm, List.map_cons, List.map_cons, hp]
      · rw [if_neg hp, List.map_cons, List.map_cons, ih]
        have hme : (c ∈ p.1 :: rest.map (·.1)) ↔ c ∈ rest.map (·.1) := by
          rw [List.mem_cons]
          exact or_iff_right (fun h => hp h.symm)
        by_cases hm : c ∈ rest.map (·.1)
        · rw [if_pos hm, if_pos (hme.2 hm)]
        · rw [if_neg hm, if_neg (fun h => hm (hme.1 h))]
          rfl

theorem nodup_keys_dictInsert {acc : List (Int × Int)} {c l : Int}
    (h : (acc.map (·.1)).Nodup) : ((dictInsert acc c l).map (·.1)).Nodup := by
  rw [keys_dictInsert]
  by_cases hm : c ∈ acc.map (·.1)
  · rw [if_pos hm]
    exact h
  · rw [if_neg hm]
    rw [List.nodup_append]
    exact ⟨h, List.nodup_singleton c, by simp [hm]⟩

theorem readConns_eq_foldl (k : Nat) :
    ∀ acc ts d r, readConns k acc ts = .ok d r →
      ∃ ps, readPairs k ts = .ok ps r ∧
        d = ps.foldl (fun a p => dictInsert a p.1 p.2) acc := by
  induction k with
  | zero =>
      intro acc ts d r h
      obtain ⟨hd, hts⟩ := ppure_ok h
      exact ⟨[], by rw [hts]; rfl, hd.symm⟩
  | succ k ih =>
      intro acc ts d r h
      obtain ⟨c, r1, hc, h⟩ := pbind_ok h
      obtain ⟨l, r2, hl, h⟩ := pbind_ok h
      obtain ⟨ps, hps, hd⟩ := ih (dictInsert acc c l) r2 d r h
      refine ⟨(c, l) :: ps, ?_, hd⟩
      show pbind nextInt (fun c =>
        pbind nextInt fun l =>
        pbind (readPairs k) fun rest =>
        ppure ((c, l) :: rest)) ts = _
      simp only [pbind, ppure, hc, hl, hps]

theorem readConns_nodup (k : Nat) :
    ∀ acc ts d r, (acc.map (·.1)).Nodup → readConns k acc ts = .ok d r →
      (d.map (·.1)).Nodup := by
  induction k with
  | zero =>
      intro acc ts d r hacc h
      obtain ⟨hd, _⟩ := ppure_ok h
      rw [← hd]
      exact hacc
  | succ k ih =>
      intro acc ts d r hacc h
      obtain ⟨c, r1, hc, h⟩ := pbind_ok h
      obtain ⟨l, r2, hl, h⟩ := pbind_ok h
      exact ih (dictInsert acc c l) r2 d r (nodup_keys_dictInsert hacc) h

/-! ## Parser structural invariants -/

theorem readRequests_ids (n : Nat) :
    ∀ i ts reqs r, readRequests i n ts = .ok reqs r →
      reqs.map (·.id) = List.range' i n := by
  induction n with
  | zero =>
      intro i ts reqs r h
      obtain ⟨hr, _⟩ := ppure_ok h
      rw [← hr]
      rfl
  | succ n ih =>
      intro i ts reqs r h
      obtain ⟨rv, r1, _, h⟩ := pbind_ok h
      obtain ⟨re, r2, _, h⟩ := pbind_ok h
      obtain ⟨rn, r3, _, h⟩ := pbind_ok h
      obtain ⟨rest, r4, hrest, h⟩ := pbind_ok h
      obtain ⟨hr, _⟩ := ppure_ok h
      rw [← hr, List.map_cons, ih (i + 1) r3 rest r4 hrest]
      rfl

theorem readEndpoints_nodup (n : Nat) :
    ∀ ts eps r, readEndpoints n ts = .ok eps r →
      ∀ ep ∈ eps, (ep.conns.map (·.1)).Nodup := by
  induction n with
  | zero =>
      intro ts eps r h
      obtain ⟨he, _⟩ := ppure_ok h
      rw [← he]
      intro ep hep
      cases hep
  | succ n ih =>
      intro ts eps r h
      obtain ⟨ld, r1, _, h⟩ := pbind_ok h
      obtain ⟨k, r2, _, h⟩ := pbind_ok h
      obtain ⟨conns, r3, hconns, h⟩ := pbind_ok h
      obtain ⟨rest, r4, hrest, h⟩ := pbind_ok h
      obtain ⟨he, _⟩ := ppure_ok h
      rw [← he]
      intro ep hep
      rcases List.mem_cons.1 hep with h1 | h1
      · rw [h1]
        exact readConns_nodup k.toNat [] r2 conns r3 List.nodup_nil hconns
      · exact ih r3 rest r4 hrest ep h1

theorem parseTokens_structural {ts : List String} {inst : Instance} {r : List String}
    (h : parseTokens ts = .ok inst r) : idsCanonical inst ∧ connsNodup inst := by
  obtain ⟨V, r1, _, h⟩ := pbind_ok h
  obtain ⟨E, r2, _, h⟩ := pbind_ok h
  obtain ⟨R, r3, _, h⟩ := pbind_ok h
  obtain ⟨C, r4, _, h⟩ := pbind_ok h
  obtain ⟨X, r5, _, h⟩ := pbind_ok h
  obtain ⟨sizes, r6, _, h⟩ := pbind_ok h
  obtain ⟨eps, r7, heps, h⟩ := pbind_ok h
  obtain ⟨reqs, r8, hreqs, h⟩ := pbind_ok h
  obtain ⟨hi, _⟩ := ppure_ok h
  rw [← hi]
  constructor
  · show reqs.map (·.id) = List.range reqs.length
    have hids := readRequests_ids R.toNat 0 r7 reqs r8 hreqs
    have hlen : reqs.length = R.toNat := by
      have := congrArg List.length hids
      simpa using this
    rw [hids, hlen, List.range_eq_range']
  · show ∀ ep ∈ eps, (ep.conns.map (·.1)).Nodup
    exact readEndpoints_nodup E.toNat r6 eps r7 heps

/-! ## Serving keys are duplicate-free -/

theorem map_filter_eq_filterMap {α β : Type} (p : α → Bool) (f : α → β) (l : List α) :
    (l.filter p).map f = l.filterMap (fun a => if p a then some (f a) else none) := by
  induction l with
  | nil => rfl
  | cons x l ih =>
      rw [List.filter_cons, List.filterMap_cons]
      by_cases hx : p x
      · simp [hx, ih]
      · simp [hx, ih]

theorem block_keys_eq {inst : Instance} (r : PRequest) :
    (entriesOf inst r).map (·.1) =
      ((endpointOf inst r.e).conns.filter (fun p =>
        decide (p.2 < (endpointOf inst r.e).ld ∧ size inst r.v ≤ inst.X))).map
        (fun p => (r.id, p.1)) := by
  unfold entriesOf
  rw [List.map_filterMap, map_filter_eq_filterMap]
  apply List.filterMap_congr
  intro p hp
  by_cases hc : (p.2 < (endpointOf inst r.e).ld ∧ size inst r.v ≤ inst.X)
  · rw [if_pos hc, if_pos (by simp [hc])]
    rfl
  · rw [if_neg hc, if_neg (by simp [hc])]
    rfl

theorem nodup_block_keys {inst : Instance} (hnd : connsNodup inst) (r : PRequest) :
    ((entriesOf inst r).map (·.1)).Nodup := by
  rw [block_keys_eq]
  apply List.Nodup.map_on
  · intro x hx y hy hxy
    have hx' := List.mem_of_mem_filter hx
    have hy' := List.mem_of_mem_filter hy
    exact eq_of_mem_keys_nodup (endpointOf_conns_nodup hnd r.e) hx' hy'
      (congrArg Prod.snd hxy)
  · exact (List.Nodup.of_map _ (endpointOf_conns_nodup hnd r.e)).filter _

theorem xKeys_nodup {inst : Instance} (hid : idsCanonical inst)
    (hnd : connsNodup inst) : (xKeys inst).Nodup := by
  unfold xKeys xEntries
  rw [List.map_flatMap, List.nodup_flatMap]
  constructor
  · intro r hr
    exact nodup_block_keys hnd r
  · have hpw : inst.requests.Pairwise (fun a b => a.id ≠ b.id) := by
      have hn := ids_nodup hid
      rw [List.Nodup] at hn
      rw [List.pairwise_map] at hn
      exact hn
    refine hpw.imp ?_
    intro a b hab k hka hkb
    obtain ⟨ta, hta, htka⟩ := List.mem_map.1 hka
    obtain ⟨tb, htb, htkb⟩ := List.mem_map.1 hkb
    apply hab
    calc a.id = ta.1.1 := (entriesOf_key hta).symm
      _ = k.1 := congrArg Prod.fst htka
      _ = tb.1.1 := (congrArg Prod.fst htkb).symm
      _ = b.id := entriesOf_key htb

/-! ## Claim theorems -/

/-- C2: for every parsed well-formed instance, a placement variable
`Y(c, v)` is created if and only if `c` is in `[0, C)`, `v` is the
video of at least one request, and `size(v) ≤ X`; no `Y` variable
exists for any unrequested or oversized video. -/
theorem y_keys_spec (inst : Instance) (h : WF inst) (c v : Int) :
    (c, v) ∈ yKeys inst ↔
      ((0 ≤ c ∧ c < inst.C) ∧ (∃ r ∈ inst.requests, r.v = v) ∧
        size inst v ≤ inst.X) := by
  rw [mem_yKeys, mem_requestedVideos]

/-- C3: a serving variable `X(r, c)` is created if and only if `c`
appears in the connection map of the endpoint of `r`, the connection
latency to `c` is strictly below the fallback latency, and the video of
`r` fits the capacity; equal-latency connections and oversized videos
never yield an `X` variable. -/
theorem x_keys_spec (inst : Instance) (h : WF inst) (i : Nat) (c : Int) :
    (i, c) ∈ xKeys inst ↔
      ∃ r ∈ inst.requests, r.id = i ∧ c ∈ connectedCaches inst r.e ∧
        cacheLatency inst r.e c < fallbackLatency inst r.e ∧
        size inst r.v ≤ inst.X := by
  obtain ⟨-, -, -, -, -, -, -, -, -, hnd⟩ := h
  exact mem_xKeys_iff hnd

/-- C1: the objective is exactly the sum, over every created serving
variable, of `(fallback latency - cache latency) * count` times the
variable; each coefficient is the per-pair saving weighted by the count
of the request, and no other term appears. -/
theorem objective_spec (inst : Instance) (h : WF inst) :
    (∀ t ∈ xEntries inst,
        t.2 = (fallbackLatency inst (reqOf inst t.1.1).e -
                 cacheLatency inst (reqOf inst t.1.1).e t.1.2) * (reqOf inst t.1.1).n) ∧
    ∀ σ : Nat × Int → Bool, objective inst σ = specObjective inst σ := by
  obtain ⟨-, -, -, -, -, -, -, hid, -, hnd⟩ := h
  constructor
  · intro t ht
    exact coeff_of_mem_xEntries hid hnd ht
  · intro σ
    unfold objective specObjective xKeys
    rw [List.map_map]
    apply congrArg List.sum
    apply List.map_congr_left
    intro t ht
    rw [coeff_of_mem_xEntries hid hnd ht]
    rfl

/-- C5: the model holds exactly one capacity constraint per cache index
in `[0, C)` — with an empty left-hand side for a cache holding no `Y`
variable — and each constraint sums `size(v) * Y(c, v)` over the
requested videos that fit, bounded by the capacity `X`. -/
theorem capacity_spec (inst : Instance) (h : WF inst) :
    capacityConstraints inst =
      (rangeInt inst.C).map (fun c =>
        (⟨((requestedVideos inst).filter (fun v => decide (size inst v ≤ inst.X))).map
            (fun v => (size inst v, VarId.y c v)), inst.X⟩ : LinCons)) ∧
    (capacityConstraints inst).length = inst.C.toNat ∧
    (∀ cons ∈ capacityConstraints inst, cons.rhs = inst.X) ∧
    (∀ c ∈ rangeInt inst.C, (∀ v, (c, v) ∉ yKeys inst) →
      (⟨[], inst.X⟩ : LinCons) ∈ capacityConstraints inst) := by
  have hmain : capacityConstraints inst =
      (rangeInt inst.C).map (fun c =>
        (⟨((requestedVideos inst).filter (fun v => decide (size inst v ≤ inst.X))).map
            (fun v => (size inst v, VarId.y c v)), inst.X⟩ : LinCons)) := by
    unfold capacityConstraints
    apply List.map_congr_left
    intro c hc
    have hfil : (requestedVideos inst).filter (fun v => decide ((c, v) ∈ yKeys inst)) =
        (requestedVideos inst).filter (fun v => decide (size inst v ≤ inst.X)) := by
      apply List.filter_congr
      intro v hv
      apply decide_eq_decide.2
      rw [mem_yKeys]
      constructor
      · rintro ⟨-, -, hs⟩
        exact hs
      · intro hs
        exact ⟨mem_rangeInt.1 hc, hv, hs⟩
    rw [hfil]
  refine ⟨hmain, ?_, ?_, ?_⟩
  · unfold capacityConstraints
    rw [List.length_map]
    unfold rangeInt
    rw [List.length_map, List.length_range]
  · intro cons hc
    unfold capacityConstraints at hc
    obtain ⟨c, -, hc⟩ := List.mem_map.1 hc
    rw [← hc]
  · intro c hc hno
    rw [hmain]
    have hfil : (requestedVideos inst).filter (fun v => decide (size inst v ≤ inst.X)) = [] := by
      apply List.filter_eq_nil_iff.2
      intro v hv hs
      refine hno v ?_
      rw [mem_yKeys]
      exact ⟨mem_rangeInt.1 hc, hv, by simpa using hs⟩
    refine List.mem_map.2 ⟨c, hc, ?_⟩
    rw [hfil]
    rfl

/-- C6: exactly one single-service constraint `Σ X(r,c) ≤ 1` is added
per request possessing at least one serving variable, covering exactly
the serving variables of that request; a request with no eligible cache
yields no constraint and contributes no objective term. -/
theorem single_service_spec (inst : Instance) (h : WF inst) :
    singleServiceConstraints inst =
      (inst.requests.filter (fun r => !(keysOf inst r.id).isEmpty)).map
        (fun r => (⟨(keysOf inst r.id).map (fun k => ((1 : Int), VarId.x k.1 k.2)),
          1⟩ : LinCons)) ∧
    ∀ r ∈ inst.requests, keysOf inst r.id = [] →
      ∀ t ∈ xEntries inst, t.1.1 ≠ r.id := by
  obtain ⟨-, -, -, -, -, -, -, hid, -, hnd⟩ := h
  constructor
  · have h1 : singleServiceConstraints inst =
        inst.requests.filterMap (fun r =>
          if ((keysOf inst r.id).map (fun k => ((1 : Int), VarId.x k.1 k.2))).isEmpty
          then none
          else some (⟨(keysOf inst r.id).map (fun k => ((1 : Int), VarId.x k.1 k.2)),
            1⟩ : LinCons)) := by
      unfold singleServiceConstraints
      apply List.filterMap_congr
      intro r hr
      rw [vars_eq_keysOf hid hnd hr]
    rw [h1, filterMap_if_empty
      (fun r => (keysOf inst r.id).map (fun k => ((1 : Int), VarId.x k.1 k.2)))
      (fun l => (⟨l, 1⟩ : LinCons)) inst.requests]
    congr 1
    apply List.filter_congr
    intro r hr
    rw [isEmpty_map]
  · intro r hr hempty t ht htid
    have hmem : t.1 ∈ keysOf inst r.id := by
      unfold keysOf
      rw [List.mem_filter]
      constructor
      · unfold xKeys
        exact List.mem_map.2 ⟨t, ht, rfl⟩
      · simp [htid]
    rw [hempty] at hmem
    cases hmem

theorem connsInRange_endpointOf {inst : Instance} (hcr : connsInRange inst) (e : Int) :
    ∀ p ∈ (endpointOf inst e).conns, 0 ≤ p.1 ∧ p.1 < inst.C := by
  intro p hp
  unfold endpointOf at hp
  rcases Nat.lt_or_ge e.toNat inst.endpoints.length with hlt | hge
  · rw [List.getD_eq_getElem _ _ hlt] at hp
    exact hcr _ (List.getElem_mem hlt) p hp
  · rw [List.getD_eq_default _ _ hge] at hp
    cases hp

theorem addConsistency_all {inst : Instance} :
    ∀ ks : List (Nat × Int),
      (∀ k ∈ ks, (k.2, (reqOf inst k.1).v) ∈ yKeys inst) →
      addConsistency inst ks = some (ks.map (fun k =>
        (⟨[(1, .x k.1 k.2), (-1, .y k.2 (reqOf inst k.1).v)], 0⟩ : LinCons))) := by
  intro ks
  induction ks with
  | nil =>
      intro _
      rfl
  | cons k rest ih =>
      intro hall
      show (if (k.2, (reqOf inst k.1).v) ∈ yKeys inst then
              match addConsistency inst rest with
              | some l => some ((⟨[(1, .x k.1 k.2),
                  (-1, .y k.2 (reqOf inst k.1).v)], 0⟩ : LinCons) :: l)
              | none => none
            else none) = _
      rw [if_pos (hall k (List.mem_cons_self k rest)),
        ih (fun k hk => hall k (List.mem_cons_of_mem _ hk))]
      rfl

/-- C4 counterexample: an instance the parser accepts in which the
single connection names cache 1 while only cache 0 exists; the serving
variable `X(0, 1)` is created, the placement variable `Y(1, 0)` is not,
and the consistency loop dies on the missing `y` key. -/
theorem consistency_counterexample :
    WF danglingEx ∧ (0, 1) ∈ xKeys danglingEx ∧
    (1, (reqOf danglingEx 0).v) ∉ yKeys danglingEx ∧
    consistencyConstraints danglingEx = none := by decide

/-- C4 amended: on a well-formed instance whose connections only name
caches in `[0, C)`, every serving variable has its placement partner and
one linking constraint `X(r,c) ≤ Y(c, r.video)` is added per serving
variable. -/
theorem consistency_spec (inst : Instance) (h : WF inst) (hcr : connsInRange inst) :
    ∃ l, consistencyConstraints inst = some l ∧
      l.length = (xKeys inst).length ∧
      ∀ k ∈ xKeys inst,
        (k.2, (reqOf inst k.1).v) ∈ yKeys inst ∧
        (⟨[(1, .x k.1 k.2), (-1, .y k.2 (reqOf inst k.1).v)], 0⟩ : LinCons) ∈ l := by
  obtain ⟨-, -, -, -, -, -, -, hid, -, -⟩ := h
  have hpartner : ∀ k ∈ xKeys inst, (k.2, (reqOf inst k.1).v) ∈ yKeys inst := by
    intro k hk
    unfold xKeys at hk
    obtain ⟨t, ht, rfl⟩ := List.mem_map.1 hk
    obtain ⟨r, hr, ht'⟩ := mem_xEntries.1 ht
    obtain ⟨p, hp, ⟨hlt, hsz⟩, rfl⟩ := mem_entriesOf.1 ht'
    show (p.1, (reqOf inst r.id).v) ∈ yKeys inst
    rw [reqOf_id hid hr, mem_yKeys]
    exact ⟨connsInRange_endpointOf hcr r.e p hp,
      mem_requestedVideos.2 ⟨r, hr, rfl⟩, hsz⟩
  refine ⟨(xKeys inst).map (fun k =>
      (⟨[(1, .x k.1 k.2), (-1, .y k.2 (reqOf inst k.1).v)], 0⟩ : LinCons)),
    ?_, List.length_map .., ?_⟩
  · unfold consistencyConstraints
    exact addConsistency_all (xKeys inst) hpartner
  · intro k hk
    exact ⟨hpartner k hk, List.mem_map.2 ⟨k, hk, rfl⟩⟩

/-- C7: under an acceptable solver status the extractor records a video
under a cache exactly when the `Y` value strictly exceeds one half, the
artifact begins with the number of caches holding at least one such
video followed by one group per such cache, and an infeasible or failed
solve produces no artifact. -/
theorem extract_spec (inst : Instance) (status : SolveStatus) (val : VarId → ℚ) :
    (acceptableStatus status = true →
      extract inst status val =
        some ⟨(cacheContents inst val).length, cacheContents inst val⟩ ∧
      (∀ c v : Int, recorded (cacheContents inst val) c v ↔
        ((c, v) ∈ yKeys inst ∧ (1 : ℚ) / 2 < val (.y c v))) ∧
      ((cacheContents inst val).map (·.1)).Nodup ∧
      (∀ e ∈ cacheContents inst val, e.2 ≠ [])) ∧
    (acceptableStatus status = false → extract inst status val = none) := by
  constructor
  · intro hacc
    refine ⟨?_, ?_, nodup_keys_cacheContents, nonempty_cacheContents⟩
    · unfold extract
      rw [hacc]
      rfl
    · intro c v
      exact recorded_cacheContents
  · intro hacc
    unfold extract
    rw [hacc]
    rfl

/-- C8 counterexample: a non-integer token makes the parse raise an
uncaught `ValueError` from `int()`, which is neither of the two
documented error kinds. -/
theorem parse_counterexample :
    parseInstance (some ["a"]) = .uncaughtValueError ∧
    ParseOutcome.uncaughtValueError ≠ ParseOutcome.malformedInstance ∧
    ParseOutcome.uncaughtValueError ≠ ParseOutcome.instanceNotFound := by decide

/-- C8 amended: exhausting the token stream before all declared fields
are read yields `MalformedInstance` with no partial structures (every
strict prefix of the consumed part of any parseable stream does so, and
any exhausted stream is so reported); an unreadable source yields
`InstanceNotFound`; and the parse reports one of those two kinds on
every failing stream whose tokens are all well-formed integers — a
non-integer token instead escapes as an uncaught `ValueError`. -/
theorem parse_spec :
    (∀ ts inst rest, parseTokens ts = .ok inst rest →
      ∀ k, k < ts.length - rest.length →
        parseInstance (some (ts.take k)) = .malformedInstance) ∧
    (∀ ts, parseTokens ts = .stopIteration →
      parseInstance (some ts) = .malformedInstance) ∧
    (∀ ts, (∀ t ∈ ts, (pyInt? t).isSome = true) →
      parseInstance (some ts) ≠ .uncaughtValueError) ∧
    parseInstance none = .instanceNotFound := by
  refine ⟨?_, ?_, ?_, rfl⟩
  · intro ts inst rest h k hk
    show (match parseTokens (ts.take k) with
          | .ok inst _ => ParseOutcome.ok inst
          | .stopIteration => ParseOutcome.malformedInstance
          | .valueError => ParseOutcome.uncaughtValueError) = _
    rw [parseTokens_truncation h k hk]
  · intro ts h
    show (match parseTokens ts with
          | .ok inst _ => ParseOutcome.ok inst
          | .stopIteration => ParseOutcome.malformedInstance
          | .valueError => ParseOutcome.uncaughtValueError) = _
    rw [h]
  · intro ts hts h
    have h2 : (match parseTokens ts with
          | .ok inst _ => ParseOutcome.ok inst
          | .stopIteration => ParseOutcome.malformedInstance
          | .valueError => ParseOutcome.uncaughtValueError) =
        ParseOutcome.uncaughtValueError := h
    cases hp : parseTokens ts with
    | ok a r =>
        rw [hp] at h2
        cases h2
    | stopIteration =>
        rw [hp] at h2
        cases h2
    | valueError =>
        exact nove_parseTokens ts hts hp

/-- C9 counterexample: with the path argument present but the file
missing, the source prints a message and returns normally, so the
process exits with status zero although the instance could not be
parsed. -/
theorem main_counterexample :
    parseInstance none = .instanceNotFound ∧
    pyMain ["f"] none .optimal (fun _ => 0) = .notFoundReturn ∧
    exitCodeOf (pyMain ["f"] none .optimal (fun _ => 0)) = 0 ∧
    wroteOutput (pyMain ["f"] none .optimal (fun _ => 0)) = false :=
  ⟨rfl, rfl, rfl, rfl⟩

/-- C9 amended: the entry point exits non-zero (with a usage message)
only when the path argument is missing; when the instance cannot be
parsed it prints a message but still exits zero without writing the
artifact; when parsing and solving succeed it writes the artifact and
exits zero. -/
theorem main_spec (userArgs : List String) (source : Option (List String))
    (status : SolveStatus) (val : VarId → ℚ) :
    (userArgs = [] →
      pyMain userArgs source status val = .usageExit ∧
      exitCodeOf (pyMain userArgs source status val) = 1 ∧
      wroteOutput (pyMain userArgs source status val) = false) ∧
    (userArgs ≠ [] → parseInstance source = .instanceNotFound →
      exitCodeOf (pyMain userArgs source status val) = 0 ∧
      wroteOutput (pyMain userArgs source status val) = false) ∧
    (userArgs ≠ [] → parseInstance source = .malformedInstance →
      exitCodeOf (pyMain userArgs source status val) = 0 ∧
      wroteOutput (pyMain userArgs source status val) = false) ∧
    (∀ inst, userArgs ≠ [] → parseInstance source = .ok inst →
      acceptableStatus status = true →
      (∃ l, consistencyConstraints inst = some l) →
      pyMain userArgs source status val =
        .wrote ⟨(cacheContents inst val).length, cacheContents inst val⟩ ∧
      exitCodeOf (pyMain userArgs source status val) = 0 ∧
      wroteOutput (pyMain userArgs source status val) = true) := by
  cases userArgs with
  | nil =>
      refine ⟨fun _ => ⟨rfl, rfl, rfl⟩, fun hne _ => absurd rfl hne,
        fun hne _ => absurd rfl hne, fun _ hne _ _ _ => absurd rfl hne⟩
  | cons a as =>
      have hmain : ∀ out, pyMain (a :: as) source status val = out ↔
          (match parseInstance source with
           | .instanceNotFound => ProgOutcome.notFoundReturn
           | .malformedInstance => .malformedReturn
           | .uncaughtValueError => .crash
           | .ok inst =>
               match consistencyConstraints inst with
               | none => .crash
               | some _ =>
                   match extract inst status val with
                   | some out => .wrote out
                   | none => .noSolution) = out := by
        intro out
        unfold pyMain
        rw [if_neg (by simp)]
      refine ⟨fun h => absurd h (by simp), ?_, ?_, ?_⟩
      · intro _ hp
        have h := (hmain ProgOutcome.notFoundReturn).2 (by rw [hp])
        rw [h]
        exact ⟨rfl, rfl⟩
      · intro _ hp
        have h := (hmain ProgOutcome.malformedReturn).2 (by rw [hp])
        rw [h]
        exact ⟨rfl, rfl⟩
      · intro inst _ hp hacc hcons
        obtain ⟨l, hl⟩ := hcons
        have hext : extract inst status val =
            some ⟨(cacheContents inst val).length, cacheContents inst val⟩ := by
          unfold extract
          rw [hacc]
          rfl
        have h := (hmain (ProgOutcome.wrote
            ⟨(cacheContents inst val).length, cacheContents inst val⟩)).2 (by
          simp only [hp, hl, hext])
        rw [h]
        exact ⟨rfl, rfl, rfl⟩

/-- C10: reading the connection pairs of an endpoint into the dict
keeps, for every cache id, exactly the latency of the last pair naming
it, with unique keys; consequently on any parsed instance the request
ids are positions, connection keys are unique, and each (request,
cache) pair yields at most one serving variable and objective term. -/
theorem dict_last_wins_spec :
    (∀ k ts d rest, readConns k [] ts = .ok d rest →
      ∃ ps, readPairs k ts = .ok ps rest ∧
        (∀ c, dlookup d c = lastValue ps c) ∧
        (d.map (·.1)).Nodup) ∧
    (∀ ts inst rest, parseTokens ts = .ok inst rest →
      idsCanonical inst ∧ connsNodup inst ∧ (xKeys inst).Nodup) := by
  constructor
  · intro k ts d rest h
    obtain ⟨ps, hps, hd⟩ := readConns_eq_foldl k [] ts d rest h
    refine ⟨ps, hps, ?_, ?_⟩
    · intro c
      rw [hd, dlookup_foldl_dictInsert]
      cases hl : lastValue ps c with
      | some v => rfl
      | none => rfl
    · exact readConns_nodup k [] ts d rest List.nodup_nil h
  · intro ts inst rest h
    obtain ⟨hid, hnd⟩ := parseTokens_structural h
    exact ⟨hid, hnd, xKeys_nodup hid hnd⟩

/-! ## Witnesses: the claim theorems applied to concrete instances -/

theorem y_keys_spec_witness :
    WF specEx ∧
      (((0 : Int), (0 : Int)) ∈ yKeys specEx ↔
        (((0 : Int) ≤ 0 ∧ (0 : Int) < specEx.C) ∧
          (∃ r ∈ specEx.requests, r.v = 0) ∧ size specEx 0 ≤ specEx.X)) :=
  ⟨by decide, y_keys_spec specEx (by decide) 0 0⟩

theorem x_keys_spec_witness :
    WF specEx ∧
      ((0, (0 : Int)) ∈ xKeys specEx ↔
        ∃ r ∈ specEx.requests, r.id = 0 ∧ (0 : Int) ∈ connectedCaches specEx r.e ∧
          cacheLatency specEx r.e 0 < fallbackLatency specEx r.e ∧
          size specEx r.v ≤ specEx.X) :=
  ⟨by decide, x_keys_spec specEx (by decide) 0 0⟩

theorem objective_spec_witness :
    WF specEx ∧ ∀ σ : Nat × Int → Bool, objective specEx σ = specObjective specEx σ :=
  ⟨by decide, (objective_spec specEx (by decide)).2⟩

theorem capacity_spec_witness :
    WF specEx ∧ (capacityConstraints specEx).length = specEx.C.toNat :=
  ⟨by decide, (capacity_spec specEx (by decide)).2.1⟩

theorem single_service_spec_witness :
    WF specEx ∧
      singleServiceConstraints specEx =
        (specEx.requests.filter (fun r => !(keysOf specEx r.id).isEmpty)).map
          (fun r => (⟨(keysOf specEx r.id).map (fun k => ((1 : Int), VarId.x k.1 k.2)),
            1⟩ : LinCons)) :=
  ⟨by decide, (single_service_spec specEx (by decide)).1⟩

theorem consistency_spec_witness :
    WF specEx ∧ connsInRange specEx ∧
      ∃ l, consistencyConstraints specEx = some l ∧
        l.length = (xKeys specEx).length ∧
        ∀ k ∈ xKeys specEx,
          (k.2, (reqOf specEx k.1).v) ∈ yKeys specEx ∧
          (⟨[(1, .x k.1 k.2), (-1, .y k.2 (reqOf specEx k.1).v)], 0⟩ : LinCons) ∈ l :=
  ⟨by decide, by decide, consistency_spec specEx (by decide) (by decide)⟩

theorem extract_spec_witness :
    extract specEx .optimal (fun _ => (1 : ℚ)) =
        some ⟨(cacheContents specEx (fun _ => (1 : ℚ))).length,
          cacheContents specEx (fun _ => (1 : ℚ))⟩ ∧
      extract specEx .infeasible (fun _ => (1 : ℚ)) = none :=
  ⟨((extract_spec specEx .optimal (fun _ => (1 : ℚ))).1 rfl).1,
    (extract_spec specEx .infeasible (fun _ => (1 : ℚ))).2 rfl⟩

theorem parse_spec_witness :
    parseInstance (some (specTokens.take 3)) = .malformedInstance :=
  parse_spec.1 specTokens specEx [] (by decide) 3 (by decide)

theorem main_spec_witness :
    exitCodeOf (pyMain ["f"] none .optimal (fun _ => 0)) = 0 ∧
      wroteOutput (pyMain ["f"] none .optimal (fun _ => 0)) = false :=
  (main_spec ["f"] none .optimal (fun _ => 0)).2.1 (by decide) rfl

theorem dict_last_wins_spec_witness :
    readConns 2 [] ["0", "10", "0", "20"] = .ok [(0, 20)] [] ∧
      ∃ ps, readPairs 2 ["0", "10", "0", "20"] = .ok ps [] ∧
        (∀ c, dlookup [((0 : Int), (20 : Int))] c = lastValue ps c) ∧
        (([((0 : Int), (20 : Int))]).map (·.1)).Nodup :=
  ⟨by decide, dict_last_wins_spec.1 2 ["0", "10", "0", "20"] [(0, 20)] [] (by decide)⟩

end Videos
